import Mathlib

/-! Verification development for the fuzzy deduplication and merge engine
(merge.py): cell values, records, the similarity scorer, the duplicate
matcher, the three merge strategies and the merge orchestrator, with
theorems settling the specified properties. -/

namespace EUDB

/-- A cell value of a record: Python None, float NaN (the pandas missing
value for numeric columns), a number, a text, or a timestamp. -/
inductive Val where
  | null : Val
  | nan : Val
  | num : ℚ → Val
  | str : String → Val
  | time : ℤ → Val
deriving DecidableEq

/-- pandas pd.isna: true for None and NaN. -/
def Val.isna : Val → Bool
  | .null => true
  | .nan => true
  | _ => false

/-- Python str() of a cell value. str(None) is the text None, str(nan) is
the text nan. Numeric and timestamp formatting is approximated by toString;
no claim stringifies a numeric or timestamp name. -/
def pyStr : Val → String
  | .null => "None"
  | .nan => "nan"
  | .str s => s
  | .num q => toString q
  | .time t => toString t

/-- A record (a pandas Series row): an association list from field name to
value, in column order. -/
abbrev Record := List (String × Val)

/-- Series.get with no default: the value stored at the key, if present. -/
def findVal (r : Record) (k : String) : Option Val :=
  (r.find? fun q => decide (q.1 = k)).map Prod.snd

/-- Series.get without default, with an absent key read as None
(pd.isna(None) is true, matching Python). -/
def getV (r : Record) (k : String) : Val :=
  (findVal r k).getD Val.null

/-- Series.get with an explicit default for an absent key. -/
def getD (r : Record) (k : String) (d : Val) : Val :=
  (findVal r k).getD d

/-- Series item assignment: replace the value at an existing key, append
the key otherwise. -/
def setV : Record → String → Val → Record
  | [], k, v => [(k, v)]
  | (k1, v1) :: rest, k, v =>
      if k1 = k then (k, v) :: rest else (k1, v1) :: setV rest k v

/-- Python str.lower on one character (ASCII). -/
def lowerChar (c : Char) : Char :=
  if c.isUpper then Char.ofNat (c.toNat + 32) else c

/-- Whitespace for Python str.strip. -/
def isSpaceChar (c : Char) : Bool :=
  c = ' ' || c = '\t' || c = '\n' || c = '\r' || c = '\x0b' || c = '\x0c'

/-- Python str.strip over a character list. -/
def trimChars (s : List Char) : List Char :=
  ((s.dropWhile isSpaceChar).reverse.dropWhile isSpaceChar).reverse

/-- The normalization applied throughout merge.py: str.lower().strip(). -/
def normStr (s : String) : String :=
  ⟨trimChars (s.data.map lowerChar)⟩

/-- Inner loop of the longest common subsequence, structurally recursive in
the second list, for a fixed head and a fixed function for the tail. -/
def lcsCons (a : Char) (f : List Char → Nat) : List Char → Nat
  | [] => 0
  | b :: bs => if a = b then f bs + 1 else max (lcsCons a f bs) (f (b :: bs))

/-- Longest common subsequence length of two character lists, written with
nested structural recursion so the kernel can evaluate it. -/
def lcs : List Char → List Char → Nat
  | [], _ => 0
  | a :: as, ys => lcsCons a (lcs as) ys

/-- rapidfuzz fuzz.ratio: the normalized InDel similarity
200 * lcs / (len1 + len2) as a rational in [0, 100]; two empty strings
score 100. Written with Rat.divInt so the kernel can evaluate it. -/
def simScore (s1 s2 : String) : ℚ :=
  if s1.data.length + s2.data.length = 0 then 100
  else Rat.divInt (200 * (lcs s1.data s2.data : ℤ))
    ((s1.data.length : ℤ) + (s2.data.length : ℤ))

/-- fuzzy_match_name_location from merge.py: NaN names never match; an
exact normalized-name match with equal (or both missing) normalized
locations is a duplicate; otherwise a name similarity at or above the
threshold is accepted when a location argument is NaN, or when the
location similarity reaches the fixed constant 70. -/
def fuzzy_match_name_location (name1 location1 name2 location2 : Val) (threshold : ℚ) : Bool :=
  if name1.isna || name2.isna then false
  else
    let n1 := normStr (pyStr name1)
    let n2 := normStr (pyStr name2)
    let exactHit : Bool :=
      if n1 = n2 then
        let l1 := if location1.isna then "" else normStr (pyStr location1)
        let l2 := if location2.isna then "" else normStr (pyStr location2)
        (l1 = l2) || (l1 = "" && l2 = "")
      else false
    if exactHit then true
    else if simScore n1 n2 ≥ threshold then
      if location1.isna || location2.isna then true
      else if simScore (normStr (pyStr location1)) (normStr (pyStr location2)) ≥ 70 then true
      else false
    else false

/-- The normalized name of a row as find_duplicates computes it:
str(row.get(name, empty)).lower().strip(). A NaN name becomes the text
nan, a None name the text none. -/
def getNameStr (r : Record) : String :=
  normStr (pyStr (getD r "name" (Val.str "")))

/-- The normalized location of a row as find_duplicates computes it:
the empty string when the location is absent or NaN. -/
def getLocStr (r : Record) : String :=
  if (getV r "location").isna then "" else normStr (pyStr (getV r "location"))

/-- A duplicate match: new row label, existing row label, name-similarity
score. -/
structure Match where
  new_index : Nat
  existing_index : Nat
  similarity : ℚ
deriving DecidableEq

/-- A batch of rows: pandas index labels paired with records, in row
order. -/
abbrev Batch := List (Nat × Record)

/-- The acceptance test of the inner scan of find_duplicates, applied to
the already-normalized name and location strings of the two rows. -/
def acceptedPair (t : ℚ) (p q : Nat × Record) : Bool :=
  fuzzy_match_name_location (Val.str (getNameStr p.2)) (Val.str (getLocStr p.2))
    (Val.str (getNameStr q.2)) (Val.str (getLocStr q.2)) t

/-- The name-similarity score find_duplicates records for a candidate
pair. -/
def scoreOf (p q : Nat × Record) : ℚ :=
  simScore (getNameStr p.2) (getNameStr q.2)

/-- The inner loop of find_duplicates: scan the existing rows keeping the
accepted candidate with the strictly highest name similarity seen so
far. -/
def scanBest (p : Nat × Record) (t : ℚ) :
    List (Nat × Record) → ℚ → Option Nat → ℚ × Option Nat
  | [], best, bm => (best, bm)
  | q :: rest, best, bm =>
    if acceptedPair t p q then
      if scoreOf p q > best then scanBest p t rest (scoreOf p q) (some q.1)
      else scanBest p t rest best bm
    else scanBest p t rest best bm

/-- The per-new-row body of find_duplicates: rows whose normalized name is
empty are skipped; otherwise the best accepted existing row, if any,
becomes the unique match. -/
def matchFor (existB : Batch) (t : ℚ) (p : Nat × Record) : Option Match :=
  if getNameStr p.2 = "" then none
  else
    match scanBest p t existB 0 none with
    | (s, some ei) => some { new_index := p.1, existing_index := ei, similarity := s }
    | (_, none) => none

/-- find_duplicates from merge.py: empty inputs yield no matches,
otherwise each new row contributes at most one match. -/
def find_duplicates (newB existB : Batch) (t : ℚ) : List Match :=
  if newB.isEmpty || existB.isEmpty then []
  else newB.filterMap (matchFor existB t)

/-- pandas to_datetime on the value kinds the pipeline stores in
ingested_at: a timestamp maps to itself and a missing value to NaT
(modelled as none); parsing of other kinds is not exercised by any claim
and is mapped to NaT. -/
def toDT : Val → Option ℤ
  | .time t => some t
  | _ => none

/-- A Python greater-than on to_datetime results: any comparison with NaT
is false. -/
def dtGt (a b : Val) : Bool :=
  match toDT a, toDT b with
  | some x, some y => decide (y < x)
  | _, _ => false

/-- A Python greater-than between cell values as used on numeric fields:
comparisons involving NaN (or non-numbers) are false. -/
def numGt (a b : Val) : Bool :=
  match a, b with
  | .num x, .num y => decide (y < x)
  | _, _ => false

/-- Python x or 0: falsy values (None, 0, empty text) become 0; NaN is
truthy and passes through unchanged. -/
def pyOrZero : Val → Val
  | .null => .num 0
  | .num q => if q = 0 then .num 0 else .num q
  | .str s => if s = "" then .num 0 else .str s
  | v => v

/-- pandas Timestamp.min, the default for a missing ingested_at in
keep_latest. -/
def pdTimestampMin : Val := .time (-9223372036854775808)

/-- merge_strategy_keep_latest from merge.py: the row with the later
ingested_at wins; ties and incomparable values favor existing. -/
def merge_strategy_keep_latest (new_row existing_row : Record) : Record :=
  if dtGt (getD new_row "ingested_at" pdTimestampMin)
      (getD existing_row "ingested_at" pdTimestampMin) then new_row
  else existing_row

/-- merge_strategy_keep_richest from merge.py: the row whose
portfolio_value (after Python x or 0) is strictly greater wins; otherwise
existing wins. -/
def merge_strategy_keep_richest (new_row existing_row : Record) : Record :=
  if numGt (pyOrZero (getD new_row "portfolio_value" (Val.num 0)))
      (pyOrZero (getD existing_row "portfolio_value" (Val.num 0))) then new_row
  else existing_row

/-- The high-water-mark fields of merge_strategy_merge_fields. -/
def hwField (col : String) : Bool :=
  col = "portfolio_value" || col = "deal_size_max" || col = "no_of_rounds"

/-- One iteration of the merge_fields loop for a column of the new row:
fill a null existing value, take the later ingested_at, take the larger
high-water-mark value, otherwise keep the accumulated row unchanged.
The existing value is always read from the original existing row. -/
def mergeFieldStep (existing_row merged : Record) (kv : String × Val) : Record :=
  let new_val := kv.2
  let existing_val := getV existing_row kv.1
  if existing_val.isna && !new_val.isna then setV merged kv.1 new_val
  else if kv.1 = "ingested_at" then
    if dtGt new_val existing_val then setV merged kv.1 new_val else merged
  else if hwField kv.1 then
    if !new_val.isna && (existing_val.isna || numGt new_val existing_val) then
      setV merged kv.1 new_val
    else merged
  else merged

/-- merge_strategy_merge_fields from merge.py: start from a copy of
existing and fold the per-column rule over the columns of new. -/
def merge_strategy_merge_fields (new_row existing_row : Record) : Record :=
  new_row.foldl (mergeFieldStep existing_row) existing_row

/-- The strategy lookup of deduplicate_and_merge:
strategy_funcs.get(strategy, merge_strategy_keep_latest) — an unknown
name silently falls back to keep_latest. -/
def strategyFun (strategy : String) : Record → Record → Record :=
  if strategy = "keep_latest" then merge_strategy_keep_latest
  else if strategy = "keep_richest" then merge_strategy_keep_richest
  else if strategy = "merge_fields" then merge_strategy_merge_fields
  else merge_strategy_keep_latest

/-- The mutable state of the duplicate-processing loop of
deduplicate_and_merge: the set of new labels to drop and the map of
existing labels to merged rows. -/
structure DedupState where
  toRemove : List Nat
  toUpdate : List (Nat × Record)
deriving DecidableEq

/-- Insertion into the Python set of new indices to remove. -/
def addLabel (l : List Nat) (i : Nat) : List Nat :=
  if i ∈ l then l else l ++ [i]

/-- Assignment into the Python dict of existing updates: replace the value
at an existing key, append otherwise. -/
def setAssoc : List (Nat × Record) → Nat → Record → List (Nat × Record)
  | [], k, v => [(k, v)]
  | (k1, v1) :: rest, k, v =>
      if k1 = k then (k, v) :: rest else (k1, v1) :: setAssoc rest k v

/-- DataFrame .loc row lookup by label (first row bearing the label). -/
def lookupRow (b : Batch) (i : Nat) : Option Record :=
  (b.find? fun q => decide (q.1 = i)).map Prod.snd

/-- One iteration of the duplicate-processing loop: merge the matched pair
with the strategy; if the merge returns the existing row the new row is
just dropped, otherwise the existing label is scheduled for update and the
new row dropped. The labels always come from the frames themselves, so the
fallback branch is never taken. -/
def dedupStep (newB existB : Batch) (mergeF : Record → Record → Record)
    (st : DedupState) (m : Match) : DedupState :=
  match lookupRow newB m.new_index, lookupRow existB m.existing_index with
  | some new_row, some existing_row =>
    let merged := mergeF new_row existing_row
    if merged = existing_row then
      { st with toRemove := addLabel st.toRemove m.new_index }
    else
      { toRemove := addLabel st.toRemove m.new_index,
        toUpdate := setAssoc st.toUpdate m.existing_index merged }
  | _, _ => st

/-- The state after the whole duplicate-processing loop of
deduplicate_and_merge: fold dedupStep over the found duplicates starting
from an empty removal set and an empty update map. -/
def dedupFold (newB existB : Batch) (strategy : String) (t : ℚ) : DedupState :=
  (find_duplicates newB existB t).foldl
    (dedupStep newB existB (strategyFun strategy)) { toRemove := [], toUpdate := [] }

/-- deduplicate_and_merge from merge.py: short-circuit on an empty side;
otherwise find duplicates, process them with the selected strategy, drop
the matched new rows, and rewrite the updated existing rows in place. -/
def deduplicate_and_merge (newB existB : Batch) (strategy : String) (t : ℚ) :
    Batch × Batch :=
  if existB.isEmpty then (newB, existB)
  else if newB.isEmpty then (newB, existB)
  else
    (newB.filter fun p => decide (p.1 ∉ (dedupFold newB existB strategy t).toRemove),
     existB.map fun p =>
       match (dedupFold newB existB strategy t).toUpdate.find? (fun q => decide (q.1 = p.1)) with
       | some q => (p.1, q.2)
       | none => p)

/-- The per-field value of the merge_fields strategy as the specification
describes it: fill a null existing field from new, take the later
ingested_at, take the larger high-water-mark value, and keep the existing
value for every other field. -/
def mergeFieldsSpecVal (new_row existing_row : Record) (col : String) : Val :=
  if (getV existing_row col).isna && !(getV new_row col).isna then getV new_row col
  else if col = "ingested_at" then
    if dtGt (getV new_row col) (getV existing_row col) then getV new_row col
    else getV existing_row col
  else if hwField col then
    if !(getV new_row col).isna &&
        ((getV existing_row col).isna || numGt (getV new_row col) (getV existing_row col)) then
      getV new_row col
    else getV existing_row col
  else getV existing_row col

/-- The per-new-record hypothesis under which the matcher result is
independent of the scan order of the existing batch: either every accepted
candidate scores 0 (and no match is produced), or a single candidate
strictly beats every other accepted one. -/
def bestUnique (t : ℚ) (p : Nat × Record) (E : Batch) : Prop :=
  (∀ q ∈ E, acceptedPair t p q = true → scoreOf p q = 0) ∨
  (∃ q ∈ E, acceptedPair t p q = true ∧ 0 < scoreOf p q ∧
    ∀ q2 ∈ E, acceptedPair t p q2 = true → (scoreOf p q2 < scoreOf p q ∨ q2 = q))

instance bestUniqueDecidable (t : ℚ) (p : Nat × Record) (E : Batch) :
    Decidable (bestUnique t p E) := by
  unfold bestUnique
  exact inferInstance

/-- Demo row: acme in zagreb, ingested later. -/
def rowAcmeNew : Record :=
  [("name", Val.str "acme"), ("location", Val.str "zagreb"), ("ingested_at", Val.time 5)]

/-- Demo row: acme in zagreb, ingested earlier. -/
def rowAcmeOld : Record :=
  [("name", Val.str "acme"), ("location", Val.str "zagreb"), ("ingested_at", Val.time 3)]

/-- New record with a concrete portfolio value. -/
def rowRichNew : Record := [("portfolio_value", Val.num 5000000)]

/-- Existing record whose portfolio value is NaN (the pandas missing
numeric value). -/
def rowRichOld : Record := [("portfolio_value", Val.nan)]

/-- New record with a name but no location field. -/
def rowNoLoc : Record := [("name", Val.str "abcde")]

/-- Existing record fuzzily similar to rowNoLoc, with a location. -/
def rowZagreb : Record := [("name", Val.str "abcdef"), ("location", Val.str "zagreb")]

/-- Exact-match row for the precedence scenario. -/
def rowAcmeExact : Record := [("name", Val.str "acme"), ("location", Val.str "zagreb")]

/-- Fuzzy decoy row for the precedence scenario. -/
def rowAcmeDecoy : Record := [("name", Val.str "acme corp"), ("location", Val.str "zagreb")]

/-- First of two batch rows sharing name and location. -/
def rowDupFirst : Record :=
  [("name", Val.str "acme"), ("location", Val.str "zagreb"), ("ingested_at", Val.time 1)]

/-- Second of two batch rows sharing name and location, ingested later. -/
def rowDupSecond : Record :=
  [("name", Val.str "acme"), ("location", Val.str "zagreb"), ("ingested_at", Val.time 2)]

/-- Batch rows with pairwise distinct names, for the idempotence witness. -/
def rowIdemA : Record :=
  [("name", Val.str "acme"), ("location", Val.str "zagreb"), ("ingested_at", Val.time 1),
   ("portfolio_value", Val.num 10)]

/-- Second batch row with a distinct name, for the idempotence witness. -/
def rowIdemB : Record :=
  [("name", Val.str "blue fund"), ("location", Val.str "split"), ("ingested_at", Val.time 2),
   ("portfolio_value", Val.null)]

/-- The merge_fields scenario: new row. -/
def rowMergeNew : Record :=
  [("website", Val.str "https://x.com"), ("employees", Val.str "80")]

/-- The merge_fields scenario: existing row. -/
def rowMergeOld : Record := [("website", Val.null), ("employees", Val.str "50")]

/-- A new record whose name is NaN. -/
def rowNanName : Record := [("name", Val.nan), ("ingested_at", Val.time 1)]

/-- An existing record literally named nan. -/
def rowNanText : Record := [("name", Val.str "nan"), ("ingested_at", Val.time 0)]

/-- New row for the scan-order scenario. -/
def rowOrderNew : Record :=
  [("name", Val.str "acme"), ("location", Val.str "zagreb"), ("ingested_at", Val.time 2)]

/-- First existing row tied at similarity 100. -/
def rowOrderA : Record :=
  [("name", Val.str "acme"), ("location", Val.str "zagreb"), ("ingested_at", Val.time 1)]

/-- Second existing row tied at similarity 100. -/
def rowOrderB : Record :=
  [("name", Val.str "acme"), ("location", Val.str "zagreb"), ("ingested_at", Val.time 0)]

/-- Existing row with a name unrelated to acme, for the order-independence
witness. -/
def rowOther9 : Record :=
  [("name", Val.str "blue fund"), ("location", Val.str "split"), ("ingested_at", Val.time 1)]

theorem lcs_nil (b : List Char) : lcs [] b = 0 := rfl

theorem lcs_cons_nil (a : Char) (as : List Char) : lcs (a :: as) [] = 0 := rfl

theorem lcs_cons_cons (a b : Char) (as bs : List Char) :
    lcs (a :: as) (b :: bs) =
      if a = b then lcs as bs + 1 else max (lcs (a :: as) bs) (lcs as (b :: bs)) := rfl

theorem lcs_le_left (a : List Char) : ∀ b : List Char, lcs a b ≤ a.length := by
  induction a with
  | nil => intro b; simp [lcs_nil]
  | cons x xs ih =>
    intro b
    induction b with
    | nil => simp [lcs_cons_nil]
    | cons y ys ihb =>
      rw [lcs_cons_cons]
      split
      · have := ih ys
        simp only [List.length_cons]
        omega
      · apply max_le
        · exact le_trans ihb (by simp)
        · have := ih (y :: ys)
          simp only [List.length_cons]
          omega

theorem lcs_le_right (a : List Char) : ∀ b : List Char, lcs a b ≤ b.length := by
  induction a with
  | nil => intro b; simp [lcs_nil]
  | cons x xs ih =>
    intro b
    induction b with
    | nil => simp [lcs_cons_nil]
    | cons y ys ihb =>
      rw [lcs_cons_cons]
      split
      · have := ih ys
        simp only [List.length_cons]
        omega
      · apply max_le
        · have := ihb
          simp only [List.length_cons]
          omega
        · exact ih (y :: ys)

theorem lcs_self (a : List Char) : lcs a a = a.length := by
  induction a with
  | nil => rfl
  | cons x xs ih => rw [lcs_cons_cons]; simp [ih]

theorem lcs_eq_sum (a : List Char) :
    ∀ b : List Char, 2 * lcs a b = a.length + b.length → a = b := by
  induction a with
  | nil =>
    intro b h
    rw [lcs_nil] at h
    simp at h
    simp [List.length_eq_zero.mp h.symm]
  | cons x xs ih =>
    intro b h
    cases b with
    | nil => rw [lcs_cons_nil] at h; simp only [List.length_cons, List.length_nil] at h; omega
    | cons y ys =>
      rw [lcs_cons_cons] at h
      by_cases hxy : x = y
      · rw [if_pos hxy] at h
        simp only [List.length_cons] at h
        have : 2 * lcs xs ys = xs.length + ys.length := by omega
        rw [hxy, ih ys this]
      · rw [if_neg hxy] at h
        have h1 : lcs (x :: xs) ys ≤ ys.length := lcs_le_right _ _
        have h2 : lcs (x :: xs) ys ≤ xs.length + 1 := by
          have := lcs_le_left (x :: xs) ys; simpa using this
        have h3 : lcs xs (y :: ys) ≤ xs.length := lcs_le_left _ _
        have h4 : lcs xs (y :: ys) ≤ ys.length + 1 := by
          have := lcs_le_right xs (y :: ys); simpa using this
        simp only [List.length_cons] at h
        rcases Nat.le_total (lcs (x :: xs) ys) (lcs xs (y :: ys)) with hm | hm
        · rw [Nat.max_eq_right hm] at h; omega
        · rw [Nat.max_eq_left hm] at h; omega

theorem simScore_eq_div (s1 s2 : String) (h : s1.data.length + s2.data.length ≠ 0) :
    simScore s1 s2 =
      (200 * (lcs s1.data s2.data : ℚ)) / ((s1.data.length : ℚ) + (s2.data.length : ℚ)) := by
  unfold simScore
  rw [if_neg h, Rat.divInt_eq_div]
  push_cast
  ring

theorem sum_len_cast_pos (s1 s2 : String) (h : s1.data.length + s2.data.length ≠ 0) :
    (0 : ℚ) < (s1.data.length : ℚ) + (s2.data.length : ℚ) := by
  have : 0 < s1.data.length + s2.data.length := Nat.pos_of_ne_zero h
  exact_mod_cast this

theorem simScore_self (s : String) : simScore s s = 100 := by
  by_cases h : s.data.length + s.data.length = 0
  · unfold simScore; rw [if_pos h]
  · rw [simScore_eq_div s s h, lcs_self, div_eq_iff (ne_of_gt (sum_len_cast_pos s s h))]
    ring

theorem simScore_le_100 (s1 s2 : String) : simScore s1 s2 ≤ 100 := by
  by_cases h : s1.data.length + s2.data.length = 0
  · unfold simScore; rw [if_pos h]
  · rw [simScore_eq_div s1 s2 h, div_le_iff₀ (sum_len_cast_pos s1 s2 h)]
    have hle : 2 * lcs s1.data s2.data ≤ s1.data.length + s2.data.length := by
      have h1 := lcs_le_left s1.data s2.data
      have h2 := lcs_le_right s1.data s2.data
      omega
    have hc : ((2 * lcs s1.data s2.data : ℕ) : ℚ) ≤ ((s1.data.length + s2.data.length : ℕ) : ℚ) := by
      exact_mod_cast hle
    push_cast at hc
    nlinarith

theorem simScore_lt_100 (s1 s2 : String) (hne : s1 ≠ s2) : simScore s1 s2 < 100 := by
  by_cases h : s1.data.length + s2.data.length = 0
  · exfalso
    have h1 : s1.data = [] := List.length_eq_zero.mp (by omega)
    have h2 : s2.data = [] := List.length_eq_zero.mp (by omega)
    apply hne
    cases s1; cases s2; simp_all
  · rw [simScore_eq_div s1 s2 h, div_lt_iff₀ (sum_len_cast_pos s1 s2 h)]
    have hdne : s1.data ≠ s2.data := by
      intro hd; apply hne; cases s1; cases s2; simp_all
    have hne2 : 2 * lcs s1.data s2.data ≠ s1.data.length + s2.data.length :=
      fun hc => hdne (lcs_eq_sum s1.data s2.data hc)
    have hlt : 2 * lcs s1.data s2.data < s1.data.length + s2.data.length := by
      have h1 := lcs_le_left s1.data s2.data
      have h2 := lcs_le_right s1.data s2.data
      omega
    have hc : ((2 * lcs s1.data s2.data : ℕ) : ℚ) < ((s1.data.length + s2.data.length : ℕ) : ℚ) := by
      exact_mod_cast hlt
    push_cast at hc
    nlinarith

theorem simScore_nonneg (s1 s2 : String) : 0 ≤ simScore s1 s2 := by
  by_cases h : s1.data.length + s2.data.length = 0
  · unfold simScore; rw [if_pos h]; norm_num
  · rw [simScore_eq_div s1 s2 h]
    apply div_nonneg
    · positivity
    · exact le_of_lt (sum_len_cast_pos s1 s2 h)

theorem findVal_cons (k1 : String) (v1 : Val) (rest : Record) (k : String) :
    findVal ((k1, v1) :: rest) k = if k1 = k then some v1 else findVal rest k := by
  by_cases h : k1 = k <;> simp [findVal, List.find?_cons, h]

theorem getV_cons (k1 : String) (v1 : Val) (rest : Record) (k : String) :
    getV ((k1, v1) :: rest) k = if k1 = k then v1 else getV rest k := by
  by_cases h : k1 = k <;> simp [getV, findVal_cons, h]

theorem getV_setV_self (r : Record) (k : String) (v : Val) :
    getV (setV r k v) k = v := by
  induction r with
  | nil => simp [setV, getV_cons]
  | cons kv rest ih =>
    obtain ⟨k1, v1⟩ := kv
    by_cases h : k1 = k
    · simp [setV, h, getV_cons]
    · simp [setV, h, getV_cons, ih]

theorem getV_setV_ne (r : Record) (k k2 : String) (v : Val) (h : k2 ≠ k) :
    getV (setV r k v) k2 = getV r k2 := by
  have hne : k ≠ k2 := fun hc => h hc.symm
  induction r with
  | nil => simp [setV, getV_cons, hne]
  | cons kv rest ih =>
    obtain ⟨k1, v1⟩ := kv
    by_cases h1 : k1 = k
    · subst h1
      simp [setV, getV_cons, hne]
    · simp [setV, h1, getV_cons, ih]

theorem eq_of_mem_nodup_fst {α β : Type} (l : List (α × β))
    (h : (l.map Prod.fst).Nodup) (p q : α × β) (hp : p ∈ l) (hq : q ∈ l)
    (hfst : p.1 = q.1) : p = q := by
  induction l with
  | nil => cases hp
  | cons a rest ih =>
    simp only [List.map_cons, List.nodup_cons] at h
    rcases List.mem_cons.mp hp with hp1 | hp1 <;>
      rcases List.mem_cons.mp hq with hq1 | hq1
    · rw [hp1, hq1]
    · exfalso
      apply h.1
      rw [← hp1, hfst]
      exact List.mem_map_of_mem Prod.fst hq1
    · exfalso
      apply h.1
      rw [← hq1, ← hfst]
      exact List.mem_map_of_mem Prod.fst hp1
    · exact ih h.2 hp1 hq1

theorem getV_mem_nodup (r : Record) (h : (r.map Prod.fst).Nodup)
    (kv : String × Val) (hmem : kv ∈ r) : getV r kv.1 = kv.2 := by
  induction r with
  | nil => cases hmem
  | cons a rest ih =>
    obtain ⟨k1, v1⟩ := a
    simp only [List.map_cons, List.nodup_cons] at h
    rcases List.mem_cons.mp hmem with h1 | h1
    · rw [h1, getV_cons, if_pos rfl]
    · rw [getV_cons, if_neg, ih h.2 h1]
      intro hc
      apply h.1
      rw [hc]
      exact List.mem_map_of_mem Prod.fst h1

theorem lookupRow_cons (i1 : Nat) (r1 : Record) (rest : Batch) (i : Nat) :
    lookupRow ((i1, r1) :: rest) i = if i1 = i then some r1 else lookupRow rest i := by
  by_cases h : i1 = i <;> simp [lookupRow, List.find?_cons, h]

theorem lookupRow_eq_some_mem (b : Batch) (i : Nat) (r : Record)
    (h : lookupRow b i = some r) : (i, r) ∈ b := by
  induction b with
  | nil => simp [lookupRow] at h
  | cons a rest ih =>
    obtain ⟨i1, r1⟩ := a
    rw [lookupRow_cons] at h
    by_cases h1 : i1 = i
    · rw [if_pos h1] at h
      injection h with h2
      rw [← h1, ← h2]
      exact List.mem_cons_self _ _
    · rw [if_neg h1] at h
      exact List.mem_cons_of_mem _ (ih h)

theorem mem_lookupRow_nodup (b : Batch) (h : (b.map Prod.fst).Nodup)
    (i : Nat) (r : Record) (hmem : (i, r) ∈ b) : lookupRow b i = some r := by
  induction b with
  | nil => cases hmem
  | cons a rest ih =>
    obtain ⟨i1, r1⟩ := a
    simp only [List.map_cons, List.nodup_cons] at h
    rcases List.mem_cons.mp hmem with h1 | h1
    · injection h1 with h2 h3
      rw [lookupRow_cons, if_pos h2.symm, h3]
    · rw [lookupRow_cons, if_neg, ih h.2 h1]
      intro hc
      apply h.1
      rw [hc]
      exact List.mem_map_of_mem Prod.fst h1

theorem lookupRow_eq_none_iff (b : Batch) (i : Nat) :
    lookupRow b i = none ↔ ∀ r : Record, (i, r) ∉ b := by
  induction b with
  | nil => simp [lookupRow]
  | cons a rest ih =>
    obtain ⟨i1, r1⟩ := a
    rw [lookupRow_cons]
    by_cases h1 : i1 = i
    · rw [if_pos h1]
      constructor
      · intro hc; cases hc
      · intro hall
        exfalso
        exact hall r1 (by rw [← h1]; exact List.mem_cons_self _ _)
    · rw [if_neg h1, ih]
      constructor
      · intro hall r hr
        rcases List.mem_cons.mp hr with hh | hh
        · injection hh with h2 _; exact h1 h2.symm
        · exact hall r hh
      · intro hall r hr
        exact hall r (List.mem_cons_of_mem _ hr)

theorem lookupRow_perm (b b2 : Batch) (hp : b.Perm b2)
    (hnd : (b.map Prod.fst).Nodup) (i : Nat) :
    lookupRow b i = lookupRow b2 i := by
  have hnd2 : (b2.map Prod.fst).Nodup := ((hp.map Prod.fst).nodup_iff).mp hnd
  cases h : lookupRow b i with
  | some r =>
    exact (mem_lookupRow_nodup b2 hnd2 i r
      (hp.mem_iff.mp (lookupRow_eq_some_mem b i r h))).symm
  | none =>
    symm
    rw [lookupRow_eq_none_iff] at h ⊢
    intro r hr
    exact h r (hp.mem_iff.mpr hr)

theorem mem_addLabel (l : List Nat) (i j : Nat) :
    j ∈ addLabel l i ↔ j ∈ l ∨ j = i := by
  unfold addLabel
  by_cases h : i ∈ l
  · rw [if_pos h]
    constructor
    · exact Or.inl
    · rintro (hj | hj)
      · exact hj
      · rw [hj]; exact h
  · rw [if_neg h]
    simp

theorem scanBest_stable (p : Nat × Record) (t : ℚ) (l : List (Nat × Record)) :
    ∀ (best : ℚ) (bm : Option Nat),
      (∀ q ∈ l, acceptedPair t p q = true → scoreOf p q ≤ best) →
      scanBest p t l best bm = (best, bm) := by
  induction l with
  | nil => intro best bm _; rfl
  | cons q rest ih =>
    intro best bm h
    simp only [scanBest]
    by_cases hacc : acceptedPair t p q = true
    · rw [if_pos hacc, if_neg (not_lt.mpr (h q (List.mem_cons_self _ _) hacc))]
      exact ih best bm fun q2 hq2 => h q2 (List.mem_cons_of_mem _ hq2)
    · rw [if_neg hacc]
      exact ih best bm fun q2 hq2 => h q2 (List.mem_cons_of_mem _ hq2)

theorem scanBest_le (p : Nat × Record) (t : ℚ) (l : List (Nat × Record)) :
    ∀ (best : ℚ) (bm : Option Nat), best ≤ (scanBest p t l best bm).1 := by
  induction l with
  | nil => intro best bm; exact le_refl best
  | cons q rest ih =>
    intro best bm
    simp only [scanBest]
    by_cases hacc : acceptedPair t p q = true
    · rw [if_pos hacc]
      by_cases hgt : scoreOf p q > best
      · rw [if_pos hgt]
        exact le_trans (le_of_lt hgt) (ih _ _)
      · rw [if_neg hgt]
        exact ih _ _
    · rw [if_neg hacc]
      exact ih _ _

theorem scanBest_max (p : Nat × Record) (t : ℚ) (l : List (Nat × Record)) :
    ∀ (best : ℚ) (bm : Option Nat) (q : Nat × Record), q ∈ l →
      acceptedPair t p q = true → scoreOf p q ≤ (scanBest p t l best bm).1 := by
  induction l with
  | nil => intro best bm q hq; cases hq
  | cons q1 rest ih =>
    intro best bm q hq hacc
    simp only [scanBest]
    by_cases hacc1 : acceptedPair t p q1 = true
    · rw [if_pos hacc1]
      by_cases hgt : scoreOf p q1 > best
      · rw [if_pos hgt]
        rcases List.mem_cons.mp hq with h1 | h1
        · rw [h1]
          exact scanBest_le p t rest _ _
        · exact ih _ _ q h1 hacc
      · rw [if_neg hgt]
        rcases List.mem_cons.mp hq with h1 | h1
        · rw [h1]
          exact le_trans (not_lt.mp hgt) (scanBest_le p t rest _ _)
        · exact ih _ _ q h1 hacc
    · rw [if_neg hacc1]
      rcases List.mem_cons.mp hq with h1 | h1
      · exfalso; rw [h1] at hacc; exact hacc1 hacc
      · exact ih _ _ q h1 hacc

theorem scanBest_sound (p : Nat × Record) (t : ℚ) (l : List (Nat × Record)) :
    ∀ (best s : ℚ) (bm : Option Nat) (ei : Nat),
      scanBest p t l best bm = (s, some ei) →
      (bm = some ei ∧ s = best) ∨
        ∃ q ∈ l, acceptedPair t p q = true ∧ ei = q.1 ∧ s = scoreOf p q := by
  induction l with
  | nil =>
    intro best s bm ei h
    simp only [scanBest] at h
    injection h with h1 h2
    exact Or.inl ⟨h2, h1.symm⟩
  | cons q1 rest ih =>
    intro best s bm ei h
    simp only [scanBest] at h
    by_cases hacc1 : acceptedPair t p q1 = true
    · rw [if_pos hacc1] at h
      by_cases hgt : scoreOf p q1 > best
      · rw [if_pos hgt] at h
        rcases ih _ _ _ _ h with ⟨h1, h2⟩ | ⟨q, hq, hq2⟩
        · injection h1 with h1
          exact Or.inr ⟨q1, List.mem_cons_self _ _, hacc1, h1.symm, h2⟩
        · exact Or.inr ⟨q, List.mem_cons_of_mem _ hq, hq2⟩
      · rw [if_neg hgt] at h
        rcases ih _ _ _ _ h with h1 | ⟨q, hq, hq2⟩
        · exact Or.inl h1
        · exact Or.inr ⟨q, List.mem_cons_of_mem _ hq, hq2⟩
    · rw [if_neg hacc1] at h
      rcases ih _ _ _ _ h with h1 | ⟨q, hq, hq2⟩
      · exact Or.inl h1
      · exact Or.inr ⟨q, List.mem_cons_of_mem _ hq, hq2⟩

theorem scanBest_top (p : Nat × Record) (t S : ℚ) (lbl : Nat) (l : List (Nat × Record)) :
    ∀ (best : ℚ) (bm : Option Nat), best < S →
      (∃ x ∈ l, acceptedPair t p x = true ∧ scoreOf p x = S ∧ x.1 = lbl) →
      (∀ x ∈ l, acceptedPair t p x = true →
        scoreOf p x < S ∨ (scoreOf p x = S ∧ x.1 = lbl)) →
      scanBest p t l best bm = (S, some lbl) := by
  induction l with
  | nil =>
    intro best bm _ hex _
    obtain ⟨x, hx, _⟩ := hex
    cases hx
  | cons q1 rest ih =>
    intro best bm hbest hex hall
    simp only [scanBest]
    by_cases hacc1 : acceptedPair t p q1 = true
    · rw [if_pos hacc1]
      rcases hall q1 (List.mem_cons_self _ _) hacc1 with hlt | ⟨hS, hlbl⟩
      · have hwit : ∃ x ∈ rest, acceptedPair t p x = true ∧ scoreOf p x = S ∧ x.1 = lbl := by
          obtain ⟨x, hx, hx2⟩ := hex
          rcases List.mem_cons.mp hx with h1 | h1
          · exfalso; rw [h1] at hx2; rw [hx2.2.1] at hlt; exact lt_irrefl S hlt
          · exact ⟨x, h1, hx2⟩
        have hall2 : ∀ x ∈ rest, acceptedPair t p x = true →
            scoreOf p x < S ∨ (scoreOf p x = S ∧ x.1 = lbl) :=
          fun x hx => hall x (List.mem_cons_of_mem _ hx)
        by_cases hgt : scoreOf p q1 > best
        · rw [if_pos hgt]
          exact ih _ _ hlt hwit hall2
        · rw [if_neg hgt]
          exact ih _ _ hbest hwit hall2
      · have hgt : scoreOf p q1 > best := by rw [hS]; exact hbest
        rw [if_pos hgt, hS, hlbl]
        apply scanBest_stable
        intro q2 hq2 hacc2
        rcases hall q2 (List.mem_cons_of_mem _ hq2) hacc2 with h1 | h1
        · exact le_of_lt h1
        · exact le_of_eq h1.1
    · rw [if_neg hacc1]
      have hwit : ∃ x ∈ rest, acceptedPair t p x = true ∧ scoreOf p x = S ∧ x.1 = lbl := by
        obtain ⟨x, hx, hx2⟩ := hex
        rcases List.mem_cons.mp hx with h1 | h1
        · exfalso; rw [h1] at hx2; exact hacc1 hx2.1
        · exact ⟨x, h1, hx2⟩
      exact ih _ _ hbest hwit fun x hx => hall x (List.mem_cons_of_mem _ hx)

theorem matchFor_eq_some (E : Batch) (t : ℚ) (p : Nat × Record) (m : Match)
    (h : matchFor E t p = some m) :
    m.new_index = p.1 ∧ getNameStr p.2 ≠ "" ∧
      scanBest p t E 0 none = (m.similarity, some m.existing_index) := by
  unfold matchFor at h
  by_cases hn : getNameStr p.2 = ""
  · rw [if_pos hn] at h; cases h
  · rw [if_neg hn] at h
    cases hscan : scanBest p t E 0 none with
    | mk sc obm =>
      rw [hscan] at h
      cases obm with
      | none => cases h
      | some ei =>
        injection h with h1
        rw [← h1]
        exact ⟨rfl, hn, rfl⟩

theorem mem_find_duplicates (newB existB : Batch) (t : ℚ) (m : Match)
    (h : m ∈ find_duplicates newB existB t) :
    ∃ p ∈ newB, matchFor existB t p = some m := by
  unfold find_duplicates at h
  by_cases hg : (newB.isEmpty || existB.isEmpty) = true
  · rw [if_pos hg] at h; cases h
  · rw [if_neg hg] at h
    exact List.mem_filterMap.mp h

theorem find_dup_labels_sublist (E : Batch) (t : ℚ) (l : Batch) :
    ((l.filterMap (matchFor E t)).map Match.new_index).Sublist (l.map Prod.fst) := by
  induction l with
  | nil => simp
  | cons p rest ih =>
    cases h : matchFor E t p with
    | none =>
      rw [List.filterMap_cons_none h, List.map_cons]
      exact ih.cons p.1
    | some m =>
      rw [List.filterMap_cons_some h, List.map_cons, List.map_cons,
        (matchFor_eq_some E t p m h).1]
      exact ih.cons₂ p.1

theorem filterMap_congr_mem {α β : Type} (f g : α → Option β) (l : List α)
    (h : ∀ a ∈ l, f a = g a) : l.filterMap f = l.filterMap g := by
  induction l with
  | nil => rfl
  | cons a rest ih =>
    rw [List.filterMap_cons, List.filterMap_cons, h a (List.mem_cons_self _ _),
      ih fun a2 ha2 => h a2 (List.mem_cons_of_mem _ ha2)]

theorem filterMap_eq_map_of_some {α β : Type} (f : α → Option β) (g : α → β) (l : List α)
    (h : ∀ a ∈ l, f a = some (g a)) : l.filterMap f = l.map g := by
  induction l with
  | nil => rfl
  | cons a rest ih =>
    rw [List.filterMap_cons_some (h a (List.mem_cons_self _ _)), List.map_cons,
      ih fun a2 ha2 => h a2 (List.mem_cons_of_mem _ ha2)]

theorem foldl_congr_fun {α β : Type} (f g : β → α → β) (l : List α)
    (h : ∀ (b : β) (a : α), f b a = g b a) :
    ∀ init : β, l.foldl f init = l.foldl g init := by
  induction l with
  | nil => intro init; rfl
  | cons a rest ih =>
    intro init
    rw [List.foldl_cons, List.foldl_cons, h init a, ih]

theorem foldl_const_of_fix {α β : Type} (f : β → α → β) (l : List α)
    (h : ∀ a ∈ l, ∀ b : β, f b a = b) : ∀ acc : β, l.foldl f acc = acc := by
  induction l with
  | nil => intro acc; rfl
  | cons a rest ih =>
    intro acc
    rw [List.foldl_cons, h a (List.mem_cons_self _ _) acc,
      ih fun a2 ha2 => h a2 (List.mem_cons_of_mem _ ha2)]

theorem dtGt_self (v : Val) : dtGt v v = false := by
  unfold dtGt
  cases toDT v <;> simp

theorem numGt_self (v : Val) : numGt v v = false := by
  cases v <;> simp [numGt]

theorem merge_strategy_keep_latest_self (r : Record) :
    merge_strategy_keep_latest r r = r := by
  unfold merge_strategy_keep_latest
  split <;> rfl

theorem merge_strategy_keep_richest_self (r : Record) :
    merge_strategy_keep_richest r r = r := by
  unfold merge_strategy_keep_richest
  split <;> rfl

theorem mergeFieldStep_self (r acc : Record) (kv : String × Val)
    (hv : getV r kv.1 = kv.2) : mergeFieldStep r acc kv = acc := by
  unfold mergeFieldStep
  simp only [hv, dtGt_self, numGt_self, if_false]
  cases h2 : (kv.2).isna <;> simp [h2]

theorem merge_fields_self (r : Record) (h : (r.map Prod.fst).Nodup) :
    merge_strategy_merge_fields r r = r := by
  unfold merge_strategy_merge_fields
  exact foldl_const_of_fix _ r
    (fun kv hkv acc => mergeFieldStep_self r acc kv (getV_mem_nodup r h kv hkv)) r

theorem strategyFun_self (s : String) (r : Record) (h : (r.map Prod.fst).Nodup) :
    strategyFun s r r = r := by
  unfold strategyFun
  split_ifs <;>
    first
      | exact merge_strategy_keep_latest_self r
      | exact merge_strategy_keep_richest_self r
      | exact merge_fields_self r h

theorem dedup_shape (newB existB : Batch) (s : String) (t : ℚ) :
    ((deduplicate_and_merge newB existB s t).1).Sublist newB ∧
    ((deduplicate_and_merge newB existB s t).2).map Prod.fst = existB.map Prod.fst := by
  unfold deduplicate_and_merge
  by_cases h1 : existB.isEmpty = true
  · rw [if_pos h1]; exact ⟨List.Sublist.refl newB, rfl⟩
  · rw [if_neg h1]
    by_cases h2 : newB.isEmpty = true
    · rw [if_pos h2]; exact ⟨List.Sublist.refl newB, rfl⟩
    · rw [if_neg h2]
      refine ⟨List.filter_sublist newB, ?_⟩
      rw [List.map_map]
      apply List.map_congr_left
      intro p _
      cases hf : (dedupFold newB existB s t).toUpdate.find? (fun q => decide (q.1 = p.1)) <;>
        simp [hf]

theorem acceptedPair_self (t : ℚ) (p : Nat × Record) : acceptedPair t p p = true := by
  unfold acceptedPair fuzzy_match_name_location
  simp [Val.isna, pyStr]

theorem scoreOf_self (p : Nat × Record) : scoreOf p p = 100 :=
  simScore_self (getNameStr p.2)

theorem matchFor_self (batch : Batch) (t : ℚ) (p : Nat × Record)
    (hp : p ∈ batch)
    (hname : ∀ q ∈ batch, getNameStr q.2 ≠ "")
    (hdist : ∀ q ∈ batch, ∀ q2 ∈ batch, getNameStr q.2 = getNameStr q2.2 → q = q2) :
    matchFor batch t p =
      some { new_index := p.1, existing_index := p.1, similarity := 100 } := by
  unfold matchFor
  rw [if_neg (hname p hp)]
  have hscan : scanBest p t batch 0 none = (100, some p.1) := by
    apply scanBest_top p t 100 p.1 batch 0 none (by norm_num)
    · exact ⟨p, hp, acceptedPair_self t p, scoreOf_self p, rfl⟩
    · intro x hx _
      by_cases hn : getNameStr p.2 = getNameStr x.2
      · right
        have hpx : p = x := hdist p hp x hx hn
        rw [← hpx]
        exact ⟨scoreOf_self p, rfl⟩
      · left
        exact simScore_lt_100 _ _ hn
  rw [hscan]

theorem dedupStep_selfmatch (B : Batch) (mf : Record → Record → Record)
    (hkeys : (B.map Prod.fst).Nodup) (i : Nat) (r : Record) (hmem : (i, r) ∈ B)
    (hself : mf r r = r) (sc : ℚ) (st : DedupState) :
    dedupStep B B mf st { new_index := i, existing_index := i, similarity := sc } =
      { st with toRemove := addLabel st.toRemove i } := by
  have hl : lookupRow B i = some r := mem_lookupRow_nodup B hkeys i r hmem
  unfold dedupStep
  simp [hl, hself]

theorem foldl_discard_state (B : Batch) (mf : Record → Record → Record) :
    ∀ ms : List Match,
      (∀ m ∈ ms, ∀ st : DedupState,
        dedupStep B B mf st m = { st with toRemove := addLabel st.toRemove m.new_index }) →
      ∀ st : DedupState,
        ((ms.foldl (dedupStep B B mf) st).toUpdate = st.toUpdate ∧
          ∀ j : Nat, j ∈ (ms.foldl (dedupStep B B mf) st).toRemove ↔
            j ∈ st.toRemove ∨ j ∈ ms.map Match.new_index) := by
  intro ms
  induction ms with
  | nil => intro _ st; simp
  | cons m rest ih =>
    intro h st
    rw [List.foldl_cons, h m (List.mem_cons_self _ _) st]
    obtain ⟨hu, hr⟩ := ih (fun m2 hm2 => h m2 (List.mem_cons_of_mem _ hm2))
      { st with toRemove := addLabel st.toRemove m.new_index }
    refine ⟨hu, fun j => ?_⟩
    rw [hr j]
    simp only [mem_addLabel, List.map_cons, List.mem_cons]
    tauto

theorem scanBest_perm (p : Nat × Record) (t : ℚ) (E E2 : Batch)
    (hperm : E.Perm E2) (hu : bestUnique t p E) :
    scanBest p t E 0 none = scanBest p t E2 0 none := by
  rcases hu with hz | ⟨q, hq, hacc, hpos, hmax⟩
  · rw [scanBest_stable p t E 0 none fun q hq ha => le_of_eq (hz q hq ha),
      scanBest_stable p t E2 0 none fun q hq ha =>
        le_of_eq (hz q (hperm.mem_iff.mpr hq) ha)]
  · have hall : ∀ x ∈ E, acceptedPair t p x = true →
        scoreOf p x < scoreOf p q ∨ (scoreOf p x = scoreOf p q ∧ x.1 = q.1) := by
      intro x hx hax
      rcases hmax x hx hax with h1 | h1
      · exact Or.inl h1
      · rw [h1]; exact Or.inr ⟨rfl, rfl⟩
    rw [scanBest_top p t (scoreOf p q) q.1 E 0 none hpos ⟨q, hq, hacc, rfl, rfl⟩ hall,
      scanBest_top p t (scoreOf p q) q.1 E2 0 none hpos
        ⟨q, hperm.mem_iff.mp hq, hacc, rfl, rfl⟩
        fun x hx => hall x (hperm.mem_iff.mpr hx)]

theorem matchFor_perm (E E2 : Batch) (t : ℚ) (p : Nat × Record)
    (hperm : E.Perm E2) (hu : bestUnique t p E) :
    matchFor E t p = matchFor E2 t p := by
  unfold matchFor
  rw [scanBest_perm p t E E2 hperm hu]

theorem perm_isEmpty (E E2 : Batch) (hperm : E.Perm E2) :
    E.isEmpty = E2.isEmpty := by
  have := hperm.length_eq
  cases E <;> cases E2 <;> simp_all

theorem getV_head (k : String) (v : Val) (rest : Record) :
    getV ((k, v) :: rest) k = v := by
  rw [getV_cons, if_pos rfl]

theorem getV_tail (k : String) (v : Val) (rest : Record) (col : String)
    (h : col ≠ k) : getV ((k, v) :: rest) col = getV rest col := by
  rw [getV_cons, if_neg fun hc => h hc.symm]

theorem mergeFieldStep_getV_ne (ex acc : Record) (kv : String × Val) (col : String)
    (h : col ≠ kv.1) : getV (mergeFieldStep ex acc kv) col = getV acc col := by
  simp only [mergeFieldStep]
  split_ifs <;> first | rw [getV_setV_ne acc kv.1 col kv.2 h] | rfl

theorem mergeFieldStep_getV_self (ex acc : Record) (kv : String × Val)
    (hacc : getV acc kv.1 = getV ex kv.1) :
    getV (mergeFieldStep ex acc kv) kv.1 =
      if (getV ex kv.1).isna && !kv.2.isna then kv.2
      else if kv.1 = "ingested_at" then
        if dtGt kv.2 (getV ex kv.1) then kv.2 else getV ex kv.1
      else if hwField kv.1 then
        if !kv.2.isna && ((getV ex kv.1).isna || numGt kv.2 (getV ex kv.1)) then kv.2
        else getV ex kv.1
      else getV ex kv.1 := by
  simp only [mergeFieldStep]
  split_ifs <;> first | exact getV_setV_self acc kv.1 kv.2 | exact hacc

theorem mergeFields_fold_getV (ex : Record) :
    ∀ (l : List (String × Val)) (acc : Record),
      (l.map Prod.fst).Nodup →
      (∀ kv ∈ l, getV acc kv.1 = getV ex kv.1) →
      ∀ col : String, getV (l.foldl (mergeFieldStep ex) acc) col =
        if col ∈ l.map Prod.fst then mergeFieldsSpecVal l ex col
        else getV acc col := by
  intro l
  induction l with
  | nil => intro acc _ _ col; simp
  | cons kv rest ih =>
    intro acc hnd hacc col
    have hk : kv.1 ∉ rest.map Prod.fst := by
      simp only [List.map_cons, List.nodup_cons] at hnd
      exact hnd.1
    have hndr : (rest.map Prod.fst).Nodup := by
      simp only [List.map_cons, List.nodup_cons] at hnd
      exact hnd.2
    have haccr : ∀ kv2 ∈ rest,
        getV (mergeFieldStep ex acc kv) kv2.1 = getV ex kv2.1 := by
      intro kv2 hkv2
      have hne : kv2.1 ≠ kv.1 :=
        fun hc => hk (hc ▸ List.mem_map_of_mem Prod.fst hkv2)
      rw [mergeFieldStep_getV_ne ex acc kv kv2.1 hne]
      exact hacc kv2 (List.mem_cons_of_mem _ hkv2)
    have hmain := ih (mergeFieldStep ex acc kv) hndr haccr col
    rw [List.foldl_cons, hmain]
    by_cases hc : col = kv.1
    · subst hc
      rw [if_neg hk, if_pos (by simp)]
      obtain ⟨k, v⟩ := kv
      have hgv : getV ((k, v) :: rest : Record) k = v := getV_head k v rest
      unfold mergeFieldsSpecVal
      rw [hgv]
      exact mergeFieldStep_getV_self ex acc (k, v) (hacc (k, v) (List.mem_cons_self _ _))
    · by_cases hr : col ∈ rest.map Prod.fst
      · rw [if_pos hr, if_pos (by simp [hr])]
        obtain ⟨k, v⟩ := kv
        have hgv : getV ((k, v) :: rest : Record) col = getV rest col :=
          getV_tail k v rest col hc
        unfold mergeFieldsSpecVal
        rw [hgv]
      · rw [if_neg hr, if_neg (by simp [hc, hr]),
          mergeFieldStep_getV_ne ex acc kv col hc]

/-- Claim C1: the spec mandates an InvalidConfiguration failure for an
unknown strategy name, but deduplicate_and_merge never fails: the dict
lookup silently falls back to keep_latest, so for every strategy name
outside the three known ones the orchestrator behaves exactly as
keep_latest. -/
theorem c1_unknown_strategy_silently_defaults (newB existB : Batch) (s : String) (t : ℚ)
    (h : ¬ (s = "keep_latest" ∨ s = "keep_richest" ∨ s = "merge_fields")) :
    deduplicate_and_merge newB existB s t =
      deduplicate_and_merge newB existB "keep_latest" t := by
  have hs : strategyFun s = merge_strategy_keep_latest := by
    unfold strategyFun
    rw [if_neg fun hc => h (Or.inl hc), if_neg fun hc => h (Or.inr (Or.inl hc)),
      if_neg fun hc => h (Or.inr (Or.inr hc))]
  have hk : strategyFun "keep_latest" = merge_strategy_keep_latest := by
    unfold strategyFun
    rw [if_pos rfl]
  unfold deduplicate_and_merge dedupFold
  simp only [hs, hk]

theorem c1_witness :
    ¬ ("bogus" = "keep_latest" ∨ "bogus" = "keep_richest" ∨ "bogus" = "merge_fields") ∧
    deduplicate_and_merge [(0, rowAcmeNew)] [(1, rowAcmeOld)] "bogus" 85 =
      deduplicate_and_merge [(0, rowAcmeNew)] [(1, rowAcmeOld)] "keep_latest" 85 :=
  ⟨by decide, c1_unknown_strategy_silently_defaults _ _ "bogus" 85 (by decide)⟩

/-- Claim C2: the claim says a null (missing or NaN) portfolio_value is
treated as 0, so a new record with a real value beats an existing NaN.
In the code NaN is truthy, survives the Python x or 0 coercion, and every
comparison against it is false, so keep_richest returns the existing
record whenever its portfolio_value is NaN, whatever the new value is. -/
theorem c2_keep_richest_nan_existing_wins (new_row existing_row : Record)
    (h : getD existing_row "portfolio_value" (Val.num 0) = Val.nan) :
    merge_strategy_keep_richest new_row existing_row = existing_row := by
  unfold merge_strategy_keep_richest
  rw [h]
  have hfalse : numGt (pyOrZero (getD new_row "portfolio_value" (Val.num 0)))
      (pyOrZero Val.nan) = false := by
    cases pyOrZero (getD new_row "portfolio_value" (Val.num 0)) <;> rfl
  rw [hfalse]
  simp

theorem c2_witness :
    getD rowRichOld "portfolio_value" (Val.num 0) = Val.nan ∧
    merge_strategy_keep_richest rowRichNew rowRichOld = rowRichOld :=
  ⟨by decide, c2_keep_richest_nan_existing_wins rowRichNew rowRichOld (by decide)⟩

/-- Claim C3 counterexample: with threshold 150, far outside [0, 100],
no error is raised: the matcher still finds the exact match, the merge
runs, and a full partition is produced. -/
theorem c3_counterexample :
    deduplicate_and_merge [(0, rowAcmeNew)] [(1, rowAcmeOld)] "keep_latest" 150 =
      ([], [(1, rowAcmeNew)]) := by decide

/-- Claim C3, amended: the code performs no threshold validation; for an
out-of-range threshold deduplicate_and_merge still produces its normal
output, a sub-batch of the new rows and a label-preserving rewrite of the
existing rows. -/
theorem c3_amended_no_validation (newB existB : Batch) (s : String) (t : ℚ)
    (_h : t < 0 ∨ 100 < t) :
    ((deduplicate_and_merge newB existB s t).1).Sublist newB ∧
    ((deduplicate_and_merge newB existB s t).2).map Prod.fst = existB.map Prod.fst :=
  dedup_shape newB existB s t

theorem c3_witness :
    ((150 : ℚ) < 0 ∨ (100 : ℚ) < 150) ∧
    ((deduplicate_and_merge [(0, rowAcmeNew)] [(1, rowAcmeOld)] "keep_latest" 150).1).Sublist
      [(0, rowAcmeNew)] ∧
    ((deduplicate_and_merge [(0, rowAcmeNew)] [(1, rowAcmeOld)] "keep_latest" 150).2).map
      Prod.fst = ([(1, rowAcmeOld)] : Batch).map Prod.fst :=
  ⟨Or.inr (by norm_num),
    (c3_amended_no_validation _ _ "keep_latest" 150 (Or.inr (by norm_num))).1,
    (c3_amended_no_validation _ _ "keep_latest" 150 (Or.inr (by norm_num))).2⟩

/-- Claim C4: the claim says a pair whose name similarity reaches the
threshold is accepted whenever a location is empty or missing on either
side. In find_duplicates a missing location is stringified to the empty
string before the matcher runs, so the NaN guard inside
fuzzy_match_name_location is dead: here the name similarity is above 85
and the new row has no location, yet no match is produced because
similarity of the empty string against zagreb is 0, below 70. -/
theorem c4_missing_location_not_trusted :
    simScore (getNameStr rowNoLoc) (getNameStr rowZagreb) ≥ 85 ∧
    (getV rowNoLoc "location").isna = true ∧
    find_duplicates [(0, rowNoLoc)] [(1, rowZagreb)] 85 = [] :=
  ⟨by decide, by decide, by decide⟩

/-- Claim C5: each new row yields at most one match (labels of matches are
nodup when new labels are), any match carries the maximal name-similarity
score over all accepted existing rows, the matched existing row is itself
accepted with exactly that score, and in the concrete precedence scenario
the exact row beats the fuzzy decoy scanned before it. -/
theorem c5_best_unique_match (newB existB : Batch) (t : ℚ)
    (hnd : (newB.map Prod.fst).Nodup) :
    ((find_duplicates newB existB t).map Match.new_index).Nodup ∧
    (∀ m ∈ find_duplicates newB existB t, ∀ p ∈ newB, p.1 = m.new_index →
      ∀ q ∈ existB, acceptedPair t p q = true → scoreOf p q ≤ m.similarity) ∧
    (∀ m ∈ find_duplicates newB existB t, ∃ q ∈ existB,
      q.1 = m.existing_index ∧ ∀ p ∈ newB, p.1 = m.new_index →
        acceptedPair t p q = true ∧ m.similarity = scoreOf p q) ∧
    find_duplicates [(0, rowAcmeExact)] [(1, rowAcmeDecoy), (2, rowAcmeExact)] 60 =
      [{ new_index := 0, existing_index := 2, similarity := 100 }] := by
  refine ⟨?_, ?_, ?_, by decide⟩
  · unfold find_duplicates
    by_cases hg : (newB.isEmpty || existB.isEmpty) = true
    · rw [if_pos hg]; simp
    · rw [if_neg hg]
      exact List.Nodup.sublist (find_dup_labels_sublist existB t newB) hnd
  · intro m hm p hp hlab q hq hacc
    obtain ⟨p2, hp2, hm2⟩ := mem_find_duplicates newB existB t m hm
    obtain ⟨hni, _, hscan⟩ := matchFor_eq_some existB t p2 m hm2
    have hpp : p = p2 := eq_of_mem_nodup_fst newB hnd p p2 hp hp2 (by rw [hlab, hni])
    subst hpp
    have hle := scanBest_max p t existB 0 none q hq hacc
    rw [hscan] at hle
    exact hle
  · intro m hm
    obtain ⟨p2, hp2, hm2⟩ := mem_find_duplicates newB existB t m hm
    obtain ⟨hni, _, hscan⟩ := matchFor_eq_some existB t p2 m hm2
    rcases scanBest_sound p2 t existB 0 m.similarity none m.existing_index hscan with
      ⟨hc, _⟩ | ⟨q, hq, hacc, hei, hsim⟩
    · cases hc
    · refine ⟨q, hq, hei.symm, fun p hp hlab => ?_⟩
      have hpp : p = p2 := eq_of_mem_nodup_fst newB hnd p p2 hp hp2 (by rw [hlab, hni])
      subst hpp
      exact ⟨hacc, hsim⟩

theorem c5_witness :
    (([(0, rowAcmeExact)] : Batch).map Prod.fst).Nodup ∧
    scoreOf (0, rowAcmeExact) (1, rowAcmeDecoy) ≤ (100 : ℚ) := by
  refine ⟨by decide, ?_⟩
  have h := c5_best_unique_match [(0, rowAcmeExact)] [(1, rowAcmeDecoy), (2, rowAcmeExact)]
    60 (by decide)
  have h2 := h.2.1 { new_index := 0, existing_index := 2, similarity := 100 }
    (by rw [h.2.2.2]; exact List.mem_singleton_self _)
    (0, rowAcmeExact) (List.mem_cons_self _ _) rfl
    (1, rowAcmeDecoy) (List.mem_cons_self _ _) (by decide)
  exact h2

/-- Claim C6 counterexample: a batch holding two rows with the same name
and location but different timestamps, reconciled against itself with
keep_latest, does not leave the existing side unchanged: the second row
matches the first (scanned first, same score 100) and overwrites it, so
re-ingesting identical data is not a no-op. -/
theorem c6_counterexample :
    (deduplicate_and_merge [(0, rowDupFirst), (1, rowDupSecond)]
        [(0, rowDupFirst), (1, rowDupSecond)] "keep_latest" 85).2 ≠
      [(0, rowDupFirst), (1, rowDupSecond)] ∧
    deduplicate_and_merge [(0, rowDupFirst), (1, rowDupSecond)]
        [(0, rowDupFirst), (1, rowDupSecond)] "keep_latest" 85 =
      ([], [(0, rowDupSecond), (1, rowDupSecond)]) :=
  ⟨by decide, by decide⟩

/-- Claim C6, amended: re-ingesting identical data is a no-op provided the
batch rows carry pairwise distinct normalized names (and distinct labels,
nodup record keys, non-empty names): every row then matches exactly
itself, every strategy maps the pair to the existing row, every batch row
is discarded, and both outputs are exactly (empty, existing batch). -/
theorem c6_amended_idempotent (batch : Batch) (s : String) (t : ℚ)
    (hkeys : (batch.map Prod.fst).Nodup)
    (hrec : ∀ p ∈ batch, ((p.2 : Record).map Prod.fst).Nodup)
    (hname : ∀ p ∈ batch, getNameStr p.2 ≠ "")
    (hdist : ∀ p ∈ batch, ∀ q ∈ batch, getNameStr p.2 = getNameStr q.2 → p = q)
    (_hs : s = "keep_latest" ∨ s = "keep_richest" ∨ s = "merge_fields") :
    deduplicate_and_merge batch batch s t = ([], batch) := by
  cases hbe : batch.isEmpty with
  | true =>
    have hb : batch = [] := by
      cases batch with
      | nil => rfl
      | cons a l => simp [List.isEmpty] at hbe
    rw [hb]
    rfl
  | false =>
    unfold deduplicate_and_merge
    rw [if_neg (by simp [hbe]), if_neg (by simp [hbe])]
    have hdups : find_duplicates batch batch t =
        batch.map fun p =>
          ({ new_index := p.1, existing_index := p.1, similarity := 100 } : Match) := by
      unfold find_duplicates
      rw [if_neg (by simp [hbe])]
      exact filterMap_eq_map_of_some _ _ batch fun p hp =>
        matchFor_self batch t p hp hname hdist
    have hstep : ∀ m ∈ batch.map (fun p =>
          ({ new_index := p.1, existing_index := p.1, similarity := 100 } : Match)),
        ∀ st : DedupState, dedupStep batch batch (strategyFun s) st m =
          { st with toRemove := addLabel st.toRemove m.new_index } := by
      intro m hm st
      obtain ⟨p, hp, hmp⟩ := List.mem_map.mp hm
      rw [← hmp]
      exact dedupStep_selfmatch batch (strategyFun s) hkeys p.1 p.2
        (by simpa using hp) (strategyFun_self s p.2 (hrec p hp)) 100 st
    obtain ⟨hupd, hrem⟩ := foldl_discard_state batch (strategyFun s) _ hstep
      { toRemove := [], toUpdate := [] }
    have hfoldU : (dedupFold batch batch s t).toUpdate = [] := by
      unfold dedupFold
      rw [hdups]
      exact hupd
    have hremAll : ∀ p ∈ batch, p.1 ∈ (dedupFold batch batch s t).toRemove := by
      intro p hp
      unfold dedupFold
      rw [hdups]
      apply (hrem p.1).mpr
      right
      rw [List.map_map]
      exact List.mem_map_of_mem _ hp
    rw [Prod.mk.injEq]
    constructor
    · apply List.filter_eq_nil_iff.mpr
      intro p hp
      simp [hremAll p hp]
    · simp only [hfoldU, List.find?_nil]
      simp

theorem c6_witness :
    (([(0, rowIdemA), (1, rowIdemB)] : Batch).map Prod.fst).Nodup ∧
    deduplicate_and_merge [(0, rowIdemA), (1, rowIdemB)] [(0, rowIdemA), (1, rowIdemB)]
      "merge_fields" 85 = ([], [(0, rowIdemA), (1, rowIdemB)]) :=
  ⟨by decide, c6_amended_idempotent [(0, rowIdemA), (1, rowIdemB)] "merge_fields" 85
    (by decide) (by decide) (by decide) (by decide) (Or.inr (Or.inr rfl))⟩

/-- Claim C7: merge_fields leaves every field of the existing record
untouched unless the existing value is null and the new one is not
(filled), the field is ingested_at (later timestamp wins), or the field is
a high-water-mark field (numeric maximum, null loses); fields absent from
the new row always keep the existing value. -/
theorem c7_merge_fields_frame (new_row existing_row : Record)
    (h : (new_row.map Prod.fst).Nodup) (col : String) :
    getV (merge_strategy_merge_fields new_row existing_row) col =
      if col ∈ new_row.map Prod.fst then mergeFieldsSpecVal new_row existing_row col
      else getV existing_row col := by
  unfold merge_strategy_merge_fields
  exact mergeFields_fold_getV existing_row new_row existing_row h (fun _ _ => rfl) col

theorem c7_witness :
    getV (merge_strategy_merge_fields rowMergeNew rowMergeOld) "employees" = Val.str "50" ∧
    getV (merge_strategy_merge_fields rowMergeNew rowMergeOld) "website" =
      Val.str "https://x.com" ∧
    getV (merge_strategy_merge_fields rowMergeNew rowMergeOld) "employees" =
      (if "employees" ∈ rowMergeNew.map Prod.fst then
        mergeFieldsSpecVal rowMergeNew rowMergeOld "employees"
      else getV rowMergeOld "employees") :=
  ⟨by decide, by decide, c7_merge_fields_frame rowMergeNew rowMergeOld (by decide) "employees"⟩

/-- Claim C8: the claim says a record lacking a usable name is excluded
from matching and passes through to to-insert. In the code only an
empty-after-normalization name is skipped: a NaN name is stringified to
the text nan before the check, so this nameless record is matched against
an existing record named nan, merged, and dropped from the to-insert
output instead of passing through. -/
theorem c8_nan_name_matched :
    (Val.nan).isna = true ∧
    find_duplicates [(0, rowNanName)] [(1, rowNanText)] 85 =
      [{ new_index := 0, existing_index := 1, similarity := 100 }] ∧
    (deduplicate_and_merge [(0, rowNanName)] [(1, rowNanText)] "keep_latest" 85).1 = [] :=
  ⟨rfl, by decide, by decide⟩

/-- Claim C9 counterexample: two existing rows tied at similarity 100;
swapping their order changes which one is matched and therefore which one
is rewritten, so the match set and the updated existing rows are not
order-independent (not even up to permutation). -/
theorem c9_counterexample :
    find_duplicates [(0, rowOrderNew)] [(1, rowOrderA), (2, rowOrderB)] 85 ≠
      find_duplicates [(0, rowOrderNew)] [(2, rowOrderB), (1, rowOrderA)] 85 ∧
    ¬ ((deduplicate_and_merge [(0, rowOrderNew)] [(1, rowOrderA), (2, rowOrderB)]
          "keep_latest" 85).2.Perm
        ((deduplicate_and_merge [(0, rowOrderNew)] [(2, rowOrderB), (1, rowOrderA)]
          "keep_latest" 85).2)) :=
  ⟨by decide, by decide⟩

/-- Claim C9, amended: permuting the existing batch leaves the matches,
the to-insert output and (up to the same permutation) the updated existing
rows unchanged, provided existing labels are distinct and, for every new
row, either every accepted candidate scores 0 or a single accepted
candidate strictly beats all others. -/
theorem c9_amended_order_independent (newB existB existB2 : Batch) (s : String) (t : ℚ)
    (hperm : existB.Perm existB2)
    (hkeys : (existB.map Prod.fst).Nodup)
    (hu : ∀ p ∈ newB, bestUnique t p existB) :
    find_duplicates newB existB t = find_duplicates newB existB2 t ∧
    (deduplicate_and_merge newB existB s t).1 = (deduplicate_and_merge newB existB2 s t).1 ∧
    ((deduplicate_and_merge newB existB s t).2).Perm
      ((deduplicate_and_merge newB existB2 s t).2) := by
  have hie : existB.isEmpty = existB2.isEmpty := perm_isEmpty existB existB2 hperm
  have hfd : find_duplicates newB existB t = find_duplicates newB existB2 t := by
    unfold find_duplicates
    rw [← hie]
    by_cases hg : (newB.isEmpty || existB.isEmpty) = true
    · rw [if_pos hg, if_pos hg]
    · rw [if_neg hg, if_neg hg]
      exact filterMap_congr_mem _ _ newB fun p hp =>
        matchFor_perm existB existB2 t p hperm (hu p hp)
  have hfold : dedupFold newB existB s t = dedupFold newB existB2 s t := by
    unfold dedupFold
    rw [hfd]
    exact foldl_congr_fun _ _ _
      (fun st m => by
        unfold dedupStep
        rw [lookupRow_perm existB existB2 hperm hkeys m.existing_index]) _
  refine ⟨hfd, ?_, ?_⟩
  · unfold deduplicate_and_merge
    rw [← hie]
    by_cases h1 : existB.isEmpty = true
    · rw [if_pos h1, if_pos h1]
    · rw [if_neg h1, if_neg h1]
      by_cases h2 : newB.isEmpty = true
      · rw [if_pos h2, if_pos h2]
      · rw [if_neg h2, if_neg h2]
        simp only [hfold]
  · unfold deduplicate_and_merge
    rw [← hie]
    by_cases h1 : existB.isEmpty = true
    · rw [if_pos h1, if_pos h1]
      exact hperm
    · rw [if_neg h1, if_neg h1]
      by_cases h2 : newB.isEmpty = true
      · rw [if_pos h2, if_pos h2]
        exact hperm
      · rw [if_neg h2, if_neg h2]
        simp only [hfold]
        exact hperm.map _

theorem c9_witness :
    ([(1, rowOrderA), (2, rowOther9)] : Batch).Perm [(2, rowOther9), (1, rowOrderA)] ∧
    find_duplicates [(0, rowOrderNew)] [(1, rowOrderA), (2, rowOther9)] 85 =
      find_duplicates [(0, rowOrderNew)] [(2, rowOther9), (1, rowOrderA)] 85 ∧
    ((deduplicate_and_merge [(0, rowOrderNew)] [(1, rowOrderA), (2, rowOther9)]
        "keep_latest" 85).2).Perm
      ((deduplicate_and_merge [(0, rowOrderNew)] [(2, rowOther9), (1, rowOrderA)]
        "keep_latest" 85).2) := by
  have h := c9_amended_order_independent [(0, rowOrderNew)] [(1, rowOrderA), (2, rowOther9)]
    [(2, rowOther9), (1, rowOrderA)] "keep_latest" 85 (by decide) (by decide) (by decide)
  exact ⟨by decide, h.1, h.2.2⟩

/-- Claim C10: for every call (empty or not), the updated existing batch
keeps exactly the labels of the input existing batch in order, hence the
same row count: merging replaces rows in place and never inserts into or
deletes from the existing side. The embedding is a pure function of its
inputs, matching the copy-before-write behavior of the code. -/
theorem c10_existing_rows_preserved (newB existB : Batch) (s : String) (t : ℚ) :
    ((deduplicate_and_merge newB existB s t).2).map Prod.fst = existB.map Prod.fst ∧
    ((deduplicate_and_merge newB existB s t).2).length = existB.length := by
  have h := dedup_shape newB existB s t
  refine ⟨h.2, ?_⟩
  have h2 := congrArg List.length h.2
  simpa using h2

end EUDB
